import Mathlib

/-!
Verification development for the `grammar-utils` repository.

The repository exposes a `Constraint` trait (src/lib.rs) implemented by a
regular-expression continuation oracle and two LR(1) continuation oracles
(regular and exact variants), plus Python session wrappers (src/py.rs).
The oracle implementations themselves (`re.rs`, `lr1.rs`) are not part of
the provided sources, so they are modelled from the specification; the
session wrappers and the parser binding are embedded from `src/py.rs`.

Bytes are modelled as `Nat`, byte strings as `List Nat`, the vocabulary as
an ordered `List (List Nat)` indexed by position.
-/

namespace GrammarUtils

/-- Modelled from the spec: the byte DFA a regular expression compiles to
(`re.rs` is not among the provided sources).  Per §4.3 the DFA has a
distinguished dead sink; `step` is the transition function over bytes,
`accepting` marks match states. -/
structure ReDFA where
  start : Nat
  dead : Nat
  step : Nat → Nat → Nat
  accepting : Nat → Bool

/-- Reading a sequence of bytes from a state is the left fold of the
transition function. -/
def ReDFA.stepBytes (d : ReDFA) (q : Nat) (bs : List Nat) : Nat :=
  bs.foldl d.step q

/-- Modelled from the spec: `state_after` / `get_state` of the regex oracle
(§4.3): the DFA state after the whole input, or `none` when the input
enters the dead state. -/
def ReDFA.getState (d : ReDFA) (w : List Nat) : Option Nat :=
  if d.stepBytes d.start w = d.dead then none else some (d.stepBytes d.start w)

/-- Modelled from the spec: `is_match` of the regex oracle is DFA
acceptance of the current state. -/
def ReDFA.isMatchState (d : ReDFA) (q : Nat) : Bool :=
  d.accepting q

/-- Modelled from the spec: `valid_continuations` of the regex oracle
(§4.2/§4.3): the sorted list of vocabulary indices whose bytes, read from
the current state, do not enter the dead state; a dead/invalid current
state yields the empty list. -/
def ReDFA.validConts (d : ReDFA) (V : List (List Nat)) (q : Nat) : List Nat :=
  if q = d.dead then []
  else (List.range V.length).filter fun i => d.stepBytes q (V.getD i []) != d.dead

/-- Modelled from the spec: `next_state` of the regex oracle (§4.3): the
state after reading continuation `i`, or `none` when that drives the DFA
into the dead state. -/
def ReDFA.getNextState (d : ReDFA) (V : List (List Nat)) (q : Nat) (i : Nat) :
    Option Nat :=
  if d.stepBytes q (V.getD i []) = d.dead then none
  else some (d.stepBytes q (V.getD i []))

/-- Wellformedness of the modelled DFA: the dead state is a non-accepting
sink.  §4.3 promises the compiled DFA has a distinguished dead sink. -/
def ReDFA.DeadSink (d : ReDFA) : Prop :=
  (∀ b, d.step d.dead b = d.dead) ∧ d.accepting d.dead = false

/-- A continuation is viable at a DFA state when some extension of it is
accepted from there (spec glossary: keeps future acceptance reachable). -/
def ReDFA.Viable (d : ReDFA) (q : Nat) (c : List Nat) : Prop :=
  ∃ w, d.accepting (d.stepBytes (d.stepBytes q c) w) = true

/-- Modelled from the spec: the lexer side of an LR(1) oracle (§4.4;
`lr1.rs` is not among the provided sources).  `lexStep` is the lexer DFA
transition over bytes with dead sink `lexDead`; `lexToken` labels
accepting lexer states with a token id; `lexReach` is the precomputed set
of token ids whose accepting states are reachable from a lexer state (the
prefix-match index B of §4.2 restricted to token labels); a lexer state is
live exactly when `lexReach` is non-empty there. -/
structure LR1Lexer where
  lexStart : Nat
  lexDead : Nat
  lexStep : Nat → Nat → Nat
  lexToken : Nat → Option Nat
  lexReach : Nat → List Nat

/-- Modelled from the spec: an LR(1) parse ACTION (§4.4). -/
inductive LRAction where
  | shift (s : Nat)
  | reduce (r : Nat)
  | accept
  | error
deriving DecidableEq

/-- Modelled from the spec: the ACTION/GOTO tables of an LR(1) parser
(§4.4), whose construction the spec declares out of scope.  `tblEof` is
the end-of-input terminal used for acceptance, `numTerminals` bounds the
grammar terminal ids, `skippable` marks whitespace-like token ids, and
`redFuel` bounds consecutive reductions (finite for real tables). -/
structure LRTables where
  startState : Nat
  action : Nat → Nat → LRAction
  goto : Nat → Nat → Nat
  prodLhs : Nat → Nat
  prodLen : Nat → Nat
  tblEof : Nat
  numTerminals : Nat
  skippable : Nat → Bool
  redFuel : Nat

/-- Modelled from the spec: the LR(1) oracle state `(S, L, P, M)` of §3:
parser stack (top first), pending lexer DFA state, buffered bytes of the
token in flight, and the most recent matched-token bookkeeping
`(token_id, length within P, last accepting lexer state)`. -/
structure LR1State where
  stack : List Nat
  lexState : Option Nat
  pending : List Nat
  matched : Option (Nat × Nat × Nat)
deriving DecidableEq

/-- Modelled from the spec: pop `prodLen r` states and push the GOTO
target of the production head (one `Reduce` step of §4.4.1). -/
def LRTables.applyReduce (T : LRTables) (stack : List Nat) (r : Nat) :
    Option (List Nat) :=
  match stack.drop (T.prodLen r) with
  | [] => none
  | top :: rest => some (T.goto top (T.prodLhs r) :: top :: rest)

/-- Modelled from the spec: drive the parser on one terminal, performing
`Reduce` steps until a `Shift` pushes a state or `Accept` stops (§4.4.1);
`Error` or fuel exhaustion yields `none`. -/
def LRTables.shiftTerminal (T : LRTables) : Nat → List Nat → Nat → Option (List Nat)
  | 0, _, _ => none
  | _ + 1, [], _ => none
  | fuel + 1, top :: rest, t =>
    match T.action top t with
    | .shift s => some (s :: top :: rest)
    | .reduce r =>
        match T.applyReduce (top :: rest) r with
        | some stack' => T.shiftTerminal fuel stack' t
        | none => none
    | .accept => some (top :: rest)
    | .error => none

/-- Modelled from the spec: commit a token (§4.4.1 step 4): skippable
tokens advance the parser by zero tokens, others drive ACTION. -/
def LRTables.commitToken (T : LRTables) (stack : List Nat) (t : Nat) :
    Option (List Nat) :=
  if T.skippable t then some stack else T.shiftTerminal T.redFuel stack t

/-- Modelled from the spec: whether the parser would `Accept` from this
stack with end-of-input lookahead, running reductions as needed (§4.4.4). -/
def LRTables.acceptsEof (T : LRTables) : Nat → List Nat → Bool
  | 0, _ => false
  | _ + 1, [] => false
  | fuel + 1, top :: rest =>
    match T.action top T.tblEof with
    | .accept => true
    | .reduce r =>
        match T.applyReduce (top :: rest) r with
        | some stack' => T.acceptsEof fuel stack'
        | none => false
    | _ => false

/-- Modelled from the spec: `T_valid(top(S))` (§4.4.3): the terminal ids
the parser can consume from this stack after hypothetical reductions,
with every skippable id included unconditionally. -/
def LRTables.tValid (T : LRTables) (stack : List Nat) : List Nat :=
  (List.range T.numTerminals).filter fun t =>
    T.skippable t || (T.shiftTerminal T.redFuel stack t).isSome

/-- Modelled from the spec: absorb a list of bytes into an LR(1) state by
the streaming lex+parse step of §4.4.1: feed each byte to the lexer,
update the matched-token bookkeeping on accepting states, and on the dead
lexer state commit the matched token (invalid when there is none) and
replay the uncommitted remainder through a fresh lexer.  A stored match
length of zero cannot arise from the stepping itself and is rejected so
that each commit consumes at least one byte. -/
def advanceBytes (G : LR1Lexer) (T : LRTables) (st : LR1State) :
    List Nat → Option LR1State
  | [] => some st
  | b :: rest =>
    let lexCur := st.lexState.getD G.lexStart
    let lexNext := G.lexStep lexCur b
    if lexNext = G.lexDead then
      match st.matched with
      | none => none
      | some (tid, len, _) =>
        if _h : len = 0 then none
        else
          match T.commitToken st.stack tid with
          | none => none
          | some stack' =>
              advanceBytes G T ⟨stack', none, [], none⟩
                (((st.pending ++ [b]).drop len) ++ rest)
    else
      let buf := st.pending ++ [b]
      let newMatch :=
        match G.lexToken lexNext with
        | some tid => some (tid, buf.length, lexNext)
        | none => st.matched
      advanceBytes G T ⟨st.stack, some lexNext, buf, newMatch⟩ rest
termination_by bs => (st.pending.length + bs.length, bs.length)
decreasing_by
  all_goals simp only [Prod.lex_iff, List.length_append, List.length_cons,
    List.length_drop, List.length_nil]
  all_goals omega

/-- Modelled from the spec: the LR(1) start state of §4.4.2:
`S = [parser_start]`, no lexer state, empty buffer, no match. -/
def lr1StartState (T : LRTables) : LR1State :=
  ⟨[T.startState], none, [], none⟩

/-- Modelled from the spec: `get_state(prefix)` of the LR(1) oracles
(§4.4.2): byte-stepping over the whole prefix from the start state. -/
def lr1GetState (G : LR1Lexer) (T : LRTables) (w : List Nat) : Option LR1State :=
  advanceBytes G T (lr1StartState T) w

/-- Modelled from the spec: `next_state(state, i)` of the LR(1) oracles
(§4.4.5): step through the bytes of `V[i]`, `none` iff that invalidates. -/
def lr1GetNextState (G : LR1Lexer) (T : LRTables) (V : List (List Nat))
    (st : LR1State) (i : Nat) : Option LR1State :=
  advanceBytes G T st (V.getD i [])

/-- Modelled from the spec: `is_match(state)` (§4.4.4): the parser would
accept after committing the token currently matched in `M` (which must
cover the whole pending buffer) and reducing to the start symbol. -/
def lr1IsMatch (T : LRTables) (st : LR1State) : Bool :=
  match st.pending with
  | [] => T.acceptsEof T.redFuel st.stack
  | _ :: _ =>
    match st.matched with
    | none => false
    | some (tid, len, _) =>
      if len = st.pending.length then
        match T.commitToken st.stack tid with
        | some stack' => T.acceptsEof T.redFuel stack'
        | none => false
      else false

/-- The lexer state a possibly-absent `L` denotes when feeding resumes. -/
def LR1State.lexCurrent (G : LR1Lexer) (st : LR1State) : Nat :=
  st.lexState.getD G.lexStart

/-- Modelled from the spec: `valid_continuations` of the regular LR(1)
variant (§4.4.3, §9): a continuation is kept when it is empty (always
viable at a non-invalid state), or when byte-stepping it through the
streaming engine succeeds and the resulting pending buffer is either
empty or lexer-level viable — some token is completable from the reached
lexer state, with no deeper check against the parser. -/
def lr1ValidConts (G : LR1Lexer) (T : LRTables) (V : List (List Nat))
    (st : LR1State) : List Nat :=
  (List.range V.length).filter fun i =>
    match V.getD i [] with
    | [] => true
    | c =>
      match advanceBytes G T st c with
      | none => false
      | some st' =>
          st'.pending.isEmpty || !(G.lexReach (st'.lexCurrent G)).isEmpty

/-- Modelled from the spec: `valid_continuations` of the exact LR(1)
variant (§4.4.3): the regular variant's filter, with the candidate's own
bytes driven through the full parser (`advanceBytes` performs every
reduction and shift of the committed tokens) and the token left in
flight additionally required to complete to something the current parser
stack can consume.  The spec's further exclusion — candidates that error
only after arbitrarily many later continuations — quantifies over an
unbounded future and has no computable residue beyond these checks; the
exactness counterexample below is independent of this choice, resting
only on the mandated inclusion of empty continuations. -/
def exactLr1ValidConts (G : LR1Lexer) (T : LRTables) (V : List (List Nat))
    (st : LR1State) : List Nat :=
  (List.range V.length).filter fun i =>
    match V.getD i [] with
    | [] => true
    | c =>
      match advanceBytes G T st c with
      | none => false
      | some st' =>
          st'.pending.isEmpty ||
            (G.lexReach (st'.lexCurrent G)).any fun t =>
              T.skippable t || (T.shiftTerminal T.redFuel st'.stack t).isSome

/-- The `Constraint` trait of src/lib.rs as a record of operations over an
abstract state type; the session wrappers of src/py.rs are embedded
against it.  `onlySkippableMatching` is the extra LR(1) query used by
`LR1Constraint::get`. -/
structure ConstraintSig (St : Type) where
  getState : List Nat → Option St
  getStartState : St
  isMatchState : St → Bool
  getValidContinuations : St → List Nat
  getNextState : St → Nat → Option St
  onlySkippableMatching : St → Bool

/-- The `RegexInner` / `LR1Inner` record of src/py.rs: current state,
cached continuation indices, match flag, invalid flag. -/
structure SessionInner (St : Type) where
  state : St
  indices : List Nat
  is_match : Bool
  is_invalid : Bool

/-- `RegexConstraint::init` (src/py.rs): start state with its
continuations and match flag, not invalid. -/
def regexInit {St : Type} (C : ConstraintSig St) : SessionInner St :=
  let s := C.getStartState
  ⟨s, C.getValidContinuations s, C.isMatchState s, false⟩

/-- `RegexConstraint::reset` (src/py.rs): on a resettable prefix, replace
the state and recompute indices and match flag, clearing the invalid
flag; a prefix with no state is an error that leaves the inner state
untouched. -/
def regexReset {St : Type} (C : ConstraintSig St) (pre : Option (List Nat))
    (inner : SessionInner St) : SessionInner St :=
  match C.getState (pre.getD []) with
  | none => inner
  | some s => ⟨s, C.getValidContinuations s, C.isMatchState s, false⟩

/-- `RegexConstraint::next` (src/py.rs): when `get_next_state` fails only
the invalid flag is set; otherwise state, indices and match flag are
recomputed (the invalid flag is left as it was). -/
def regexNext {St : Type} (C : ConstraintSig St) (idx : Nat)
    (inner : SessionInner St) : SessionInner St :=
  match C.getNextState inner.state idx with
  | none => { inner with is_invalid := true }
  | some s =>
      { state := s, indices := C.getValidContinuations s,
        is_match := C.isMatchState s, is_invalid := inner.is_invalid }

/-- `RegexConstraint::get` (src/py.rs): the stored indices. -/
def regexGet {St : Type} (inner : SessionInner St) : List Nat :=
  inner.indices

/-- `is_invalid` of both wrappers (src/py.rs): explicitly invalidated, or
no continuation left while not a match. -/
def sessionIsInvalid {St : Type} (inner : SessionInner St) : Bool :=
  inner.is_invalid || (inner.indices.isEmpty && !inner.is_match)

/-- `is_match` of both wrappers (src/py.rs): the stored match flag. -/
def sessionIsMatch {St : Type} (inner : SessionInner St) : Bool :=
  inner.is_match

/-- The LRU cache of `LR1Constraint` (src/py.rs), most recent entry
first, keyed by LR(1) state. -/
abbrev LR1Cache (St : Type) : Type := List (St × (List Nat × Bool))

/-- Drop the entry with the given key, if present. -/
def lruErase {St : Type} [DecidableEq St] (c : LR1Cache St) (k : St) :
    LR1Cache St :=
  c.filter fun e => decide (e.1 ≠ k)

/-- `LruCache::get` content: the value stored for the key. -/
def lruLookup {St : Type} [DecidableEq St] (c : LR1Cache St) (k : St) :
    Option (List Nat × Bool) :=
  (c.find? fun e => decide (e.1 = k)).map Prod.snd

/-- `LruCache::get` promotion: a hit moves the entry to the front. -/
def lruTouch {St : Type} [DecidableEq St] (c : LR1Cache St) (k : St) :
    LR1Cache St :=
  match lruLookup c k with
  | none => c
  | some v => (k, v) :: lruErase c k

/-- `LruCache::put`: insert or replace at the front and evict beyond the
capacity. -/
def lruPut {St : Type} [DecidableEq St] (c : LR1Cache St) (cap : Nat) (k : St)
    (v : List Nat × Bool) : LR1Cache St :=
  ((k, v) :: lruErase c k).take cap

/-- The pair `LR1Constraint` memoises per state: continuation indices and
the match flag. -/
def lr1CacheVal {St : Type} (C : ConstraintSig St) (s : St) : List Nat × Bool :=
  (C.getValidContinuations s, C.isMatchState s)

/-- `LR1Constraint::init` (src/py.rs): start state with its pair, which is
also put into the fresh cache. -/
def lr1WInit {St : Type} [DecidableEq St] (C : ConstraintSig St) (cap : Nat) :
    SessionInner St × LR1Cache St :=
  let s := C.getStartState
  let v := lr1CacheVal C s
  (⟨s, v.1, v.2, false⟩, lruPut [] cap s v)

/-- `LR1Constraint::reset` (src/py.rs): move to the prefix state, clear
the invalid flag, and fill indices and match flag from the cache on a
hit or by recomputation (which is then cached) on a miss. -/
def lr1WReset {St : Type} [DecidableEq St] (C : ConstraintSig St) (cap : Nat)
    (pre : Option (List Nat)) (w : SessionInner St × LR1Cache St) :
    SessionInner St × LR1Cache St :=
  match C.getState (pre.getD []) with
  | none => w
  | some s =>
    match lruLookup w.2 s with
    | some v =>
        (⟨s, v.1, v.2, false⟩, lruTouch w.2 s)
    | none =>
        let v := lr1CacheVal C s
        (⟨s, v.1, v.2, false⟩, lruPut w.2 cap s v)

/-- `LR1Constraint::next` (src/py.rs): when `get_next_state` fails only
the invalid flag is set; otherwise the new state's pair comes from the
cache on a hit or is recomputed and cached on a miss (the invalid flag is
left as it was). -/
def lr1WNext {St : Type} [DecidableEq St] (C : ConstraintSig St) (cap : Nat)
    (idx : Nat) (w : SessionInner St × LR1Cache St) :
    SessionInner St × LR1Cache St :=
  match C.getNextState w.1.state idx with
  | none => ({ w.1 with is_invalid := true }, w.2)
  | some s =>
    match lruLookup w.2 s with
    | some v =>
        (⟨s, v.1, v.2, w.1.is_invalid⟩, lruTouch w.2 s)
    | none =>
        let v := lr1CacheVal C s
        (⟨s, v.1, v.2, w.1.is_invalid⟩, lruPut w.2 cap s v)

/-- `LR1Constraint::get` (src/py.rs): empty when matching with only
skippable continuations left, the stored indices otherwise. -/
def lr1WGet {St : Type} (C : ConstraintSig St) (inner : SessionInner St) :
    List Nat :=
  if inner.is_match && C.onlySkippableMatching inner.state then []
  else inner.indices

/-- A session call: `reset(prefix)` or `next(index)` (src/py.rs). -/
inductive SessionOp where
  | reset (pre : Option (List Nat))
  | next (idx : Nat)

/-- One `LR1Constraint` session call. -/
def lr1WStep {St : Type} [DecidableEq St] (C : ConstraintSig St) (cap : Nat)
    (w : SessionInner St × LR1Cache St) (op : SessionOp) :
    SessionInner St × LR1Cache St :=
  match op with
  | .reset pre => lr1WReset C cap pre w
  | .next idx => lr1WNext C cap idx w

/-- A whole `LR1Constraint` session: construction followed by a sequence
of `reset` and `next` calls. -/
def lr1WRun {St : Type} [DecidableEq St] (C : ConstraintSig St) (cap : Nat)
    (ops : List SessionOp) : SessionInner St × LR1Cache St :=
  ops.foldl (lr1WStep C cap) (lr1WInit C cap)

/-- A UTF-8 continuation byte. -/
def utf8Cont (b : Nat) : Bool :=
  0x80 ≤ b && b ≤ 0xBF

/-- Validity of a byte string as UTF-8, following the semantics of Rust's
`std::str::from_utf8` (rejecting overlong encodings, surrogates and
values beyond U+10FFFF). -/
def utf8Valid : List Nat → Bool
  | [] => true
  | b :: rest =>
    if b ≤ 0x7F then utf8Valid rest
    else if 0xC2 ≤ b && b ≤ 0xDF then
      match rest with
      | c1 :: r => utf8Cont c1 && utf8Valid r
      | [] => false
    else if b = 0xE0 then
      match rest with
      | c1 :: c2 :: r =>
          (0xA0 ≤ c1 && c1 ≤ 0xBF) && utf8Cont c2 && utf8Valid r
      | _ => false
    else if b = 0xED then
      match rest with
      | c1 :: c2 :: r =>
          (0x80 ≤ c1 && c1 ≤ 0x9F) && utf8Cont c2 && utf8Valid r
      | _ => false
    else if 0xE1 ≤ b && b ≤ 0xEF then
      match rest with
      | c1 :: c2 :: r => utf8Cont c1 && utf8Cont c2 && utf8Valid r
      | _ => false
    else if b = 0xF0 then
      match rest with
      | c1 :: c2 :: c3 :: r =>
          (0x90 ≤ c1 && c1 ≤ 0xBF) && utf8Cont c2 && utf8Cont c3 && utf8Valid r
      | _ => false
    else if 0xF1 ≤ b && b ≤ 0xF3 then
      match rest with
      | c1 :: c2 :: c3 :: r =>
          utf8Cont c1 && utf8Cont c2 && utf8Cont c3 && utf8Valid r
      | _ => false
    else if b = 0xF4 then
      match rest with
      | c1 :: c2 :: c3 :: r =>
          (0x80 ≤ c1 && c1 ≤ 0x8F) && utf8Cont c2 && utf8Cont c3 && utf8Valid r
      | _ => false
    else false

/-- `LR1Parser::prefix_parse` (src/py.rs): run the underlying prefix
parser, then decode the raw input bytes as UTF-8 (the `?` on
`std::str::from_utf8(input)`), erroring when they are not valid UTF-8; on
success return the parse produced by the underlying parser (its rendering
to a Python dict is kept abstract) together with the unconsumed tail. -/
def prefixParseBinding {α : Type} (pp : List Nat → Except String (α × List Nat))
    (input : List Nat) : Except String (α × List Nat) :=
  match pp input with
  | .error e => .error ("failed to parse input: " ++ e)
  | .ok (p, tail) =>
      if utf8Valid input then .ok (p, tail) else .error "invalid utf-8"

/-- A concrete two-state instance of the modelled regex DFA (language
`a*`): state 0 is live and accepting, state 1 is the dead sink. -/
def dfaW : ReDFA :=
  { start := 0, dead := 1,
    step := fun q b => if q == 0 && b == 97 then 0 else 1,
    accepting := fun q => q != 1 }

/-- A word byte for the email regex: `[0-9A-Za-z_]`. -/
def isWordByte (b : Nat) : Bool :=
  (48 ≤ b && b ≤ 57) || (65 ≤ b && b ≤ 90) || (97 ≤ b && b ≤ 122) || b == 95

/-- Modelled from the spec: the DFA the regex `\w+@\w+\.(com|de|org)` of
scenario S2 compiles to, written out state by state (state 13 is the dead
sink; states 7, 9 and 12 accept after `com`, `de` and `org`). -/
def emailDfa : ReDFA :=
  { start := 0, dead := 13,
    step := fun q b =>
      if q == 0 then (if isWordByte b then 1 else 13)
      else if q == 1 then
        (if isWordByte b then 1 else if b == 64 then 2 else 13)
      else if q == 2 then (if isWordByte b then 3 else 13)
      else if q == 3 then
        (if isWordByte b then 3 else if b == 46 then 4 else 13)
      else if q == 4 then
        (if b == 99 then 5 else if b == 100 then 8
         else if b == 111 then 10 else 13)
      else if q == 5 then (if b == 111 then 6 else 13)
      else if q == 6 then (if b == 109 then 7 else 13)
      else if q == 8 then (if b == 101 then 9 else 13)
      else if q == 10 then (if b == 114 then 11 else 13)
      else if q == 11 then (if b == 103 then 12 else 13)
      else 13,
    accepting := fun q => q == 7 || q == 9 || q == 12 }

/-- The bytes of the S2 benchmark prefix `"test@gmail.c"`
(src/benches/benchmark.rs). -/
def emailPre : List Nat :=
  [116, 101, 115, 116, 64, 103, 109, 97, 105, 108, 46, 99]

/-- A vocabulary exercising scenario S2 at that prefix: `"o"`, `"om"`,
`"m"`, `"."`, `"@"`, the empty continuation, `"omm"`, `"x"`. -/
def emailVocab : List (List Nat) :=
  [[111], [111, 109], [109], [46], [64], [], [111, 109, 109], [120]]

/-- A concrete instance of the modelled LR(1) lexer: token 0 is `"a"`,
token 1 is `"bb"`; lexer states: 0 start, 1 after `a` (accepts token 0),
2 after `b`, 3 after `bb` (accepts token 1), 9 dead. -/
def lexC : LR1Lexer :=
  { lexStart := 0, lexDead := 9,
    lexStep := fun q b =>
      if q = 0 ∧ b = 97 then 1
      else if q = 0 ∧ b = 98 then 2
      else if q = 2 ∧ b = 98 then 3
      else 9,
    lexToken := fun q =>
      if q = 1 then some 0 else if q = 3 then some 1 else none,
    lexReach := fun q =>
      if q = 0 then [0, 1] else if q = 1 then [0]
      else if q = 2 then [1] else if q = 3 then [1] else [] }

/-- A concrete instance of the modelled LR(1) tables for the grammar
`S → a` over terminals 0 (`a`), 1 (`bb`), end-of-input 2: parser state 0
shifts `a` to state 1, which reduces production 0 at end-of-input; GOTO
on `S` reaches state 2, which accepts. -/
def tblC : LRTables :=
  { startState := 0,
    action := fun s t =>
      if s = 0 ∧ t = 0 then .shift 1
      else if s = 1 ∧ t = 2 then .reduce 0
      else if s = 2 ∧ t = 2 then .accept
      else .error,
    goto := fun s nt => if s = 0 ∧ nt = 0 then 2 else 9,
    prodLhs := fun _ => 0,
    prodLen := fun _ => 1,
    tblEof := 2, numTerminals := 2,
    skippable := fun _ => false,
    redFuel := 4 }

/-- A degenerate concrete `Constraint` instance over `Nat` states whose
`get_next_state` always fails, for exercising the wrappers' invalidation
path. -/
def sigW : ConstraintSig Nat :=
  { getState := fun _ => some 0,
    getStartState := 0,
    isMatchState := fun _ => false,
    getValidContinuations := fun _ => [],
    getNextState := fun _ _ => none,
    onlySkippableMatching := fun _ => false }

/-- Every cache entry stores exactly the continuations and match flag of
its key. -/
def CacheOK {St : Type} (C : ConstraintSig St) (cache : LR1Cache St) : Prop :=
  ∀ e ∈ cache, e.2 = lr1CacheVal C e.1

/-- The wrapper's stored pair agrees with direct recomputation on the
stored state. -/
def InnerOK {St : Type} (C : ConstraintSig St) (inner : SessionInner St) : Prop :=
  inner.indices = C.getValidContinuations inner.state ∧
    inner.is_match = C.isMatchState inner.state

/-- Modelled from the spec glossary: a continuation is viable at an LR(1)
state when stepping its bytes succeeds and some extension from the
reached state is a match (future acceptance stays reachable). -/
def LR1Viable (G : LR1Lexer) (T : LRTables) (st : LR1State) (c : List Nat) :
    Prop :=
  ∃ st' ext st'', advanceBytes G T st c = some st' ∧
    advanceBytes G T st' ext = some st'' ∧ lr1IsMatch T st'' = true

/-- The state of the concrete LR(1) machine after the continuation `"ab"`:
`a` was committed and shifted, `b` is a pending partial token of `"bb"`. -/
def cfgC1 : LR1State := ⟨[1, 0], some 2, [98], none⟩

/-- The state one more `b` later: the token `"bb"` is fully matched but
not yet committed. -/
def cfgC2 : LR1State := ⟨[1, 0], some 3, [98, 98], some (1, 2, 3)⟩

/-- Modelled from the spec: the purely lexical part of an LR(1) state:
pending lexer state, buffered bytes, matched-token bookkeeping. -/
structure LexCfg where
  lexState : Option Nat
  pending : List Nat
  matched : Option (Nat × Nat × Nat)
deriving DecidableEq

/-- The lexical part of an LR(1) state. -/
def LR1State.lexCfg (st : LR1State) : LexCfg :=
  ⟨st.lexState, st.pending, st.matched⟩

/-- Modelled from the spec: the batch maximal-munch scanner: the same
byte-stepping as `advanceBytes`, but collecting the committed token ids in
order instead of driving the parser.  The reference tokenisation of an
input. -/
def scanTokens (G : LR1Lexer) (c : LexCfg) :
    List Nat → Option (List Nat × LexCfg)
  | [] => some ([], c)
  | b :: rest =>
    if G.lexStep (c.lexState.getD G.lexStart) b = G.lexDead then
      match c.matched with
      | none => none
      | some (tid, len, _) =>
        if _h : len = 0 then none
        else
          match scanTokens G ⟨none, [], none⟩
              (((c.pending ++ [b]).drop len) ++ rest) with
          | none => none
          | some (toks, fin) => some (tid :: toks, fin)
    else
      scanTokens G
        ⟨some (G.lexStep (c.lexState.getD G.lexStart) b), c.pending ++ [b],
          match G.lexToken (G.lexStep (c.lexState.getD G.lexStart) b) with
          | some tid => some (tid, (c.pending ++ [b]).length,
              G.lexStep (c.lexState.getD G.lexStart) b)
          | none => c.matched⟩ rest
termination_by bs => (c.pending.length + bs.length, bs.length)
decreasing_by
  all_goals simp only [Prod.lex_iff, List.length_append, List.length_cons,
    List.length_drop, List.length_nil]
  all_goals omega

/-- Modelled from the spec: the token closing the input, if the trailing
bytes form one: nothing pending is fine, a pending buffer must be exactly
covered by the matched token. -/
def finishTokens (fin : LexCfg) : Option (List Nat) :=
  match fin.pending with
  | [] => some []
  | _ :: _ =>
    match fin.matched with
    | none => none
    | some (tid, len, _) =>
        if len = fin.pending.length then some [tid] else none

/-- Modelled from the spec: drive the parser over a whole token sequence,
committing each token in turn. -/
def parseTokens (T : LRTables) (stack : List Nat) :
    List Nat → Option (List Nat)
  | [] => some stack
  | t :: ts =>
    match T.commitToken stack t with
    | some stack' => parseTokens T stack' ts
    | none => none

/-- Modelled from the spec: the reference (batch) language of the LR(1)
machine: tokenise the whole input by maximal munch, close the final
token, run the parser over the token sequence from the start stack, and
accept at end of input. -/
def lr1Lang (G : LR1Lexer) (T : LRTables) (w : List Nat) : Bool :=
  match scanTokens G ⟨none, [], none⟩ w with
  | none => false
  | some (toks, fin) =>
    match finishTokens fin with
    | none => false
    | some extra =>
      match parseTokens T [T.startState] (toks ++ extra) with
      | none => false
      | some stack => T.acceptsEof T.redFuel stack

/-- Modelled from the spec: the language of the compiled regex DFA:
inputs whose run from the start state ends in an accepting state. -/
def ReDFA.Lang (d : ReDFA) (w : List Nat) : Prop :=
  d.accepting (d.stepBytes d.start w) = true

/- ------------------------------------------------------------------ -/
/- Theorems.                                                          -/
/- ------------------------------------------------------------------ -/

theorem ReDFA.stepBytes_append (d : ReDFA) (q : Nat) (u v : List Nat) :
    d.stepBytes q (u ++ v) = d.stepBytes (d.stepBytes q u) v := by
  simp [ReDFA.stepBytes, List.foldl_append]

theorem ReDFA.stepBytes_dead (d : ReDFA) (hsink : ∀ b, d.step d.dead b = d.dead)
    (bs : List Nat) : d.stepBytes d.dead bs = d.dead := by
  induction bs with
  | nil => rfl
  | cons b bs ih =>
      simp only [ReDFA.stepBytes, List.foldl_cons, hsink b]
      exact ih

/-- Claim C1: for every constraint (regex oracle and both LR(1) variants), every
state, and every index returned by `get_valid_continuations`, the
corresponding `get_next_state` is not Invalid: it returns some state. -/
theorem extension_soundness :
    (∀ (d : ReDFA) (V : List (List Nat)) (q i : Nat),
        i ∈ d.validConts V q → (d.getNextState V q i).isSome) ∧
    (∀ (G : LR1Lexer) (T : LRTables) (V : List (List Nat)) (st : LR1State)
        (i : Nat), i ∈ lr1ValidConts G T V st →
        (lr1GetNextState G T V st i).isSome) ∧
    (∀ (G : LR1Lexer) (T : LRTables) (V : List (List Nat)) (st : LR1State)
        (i : Nat), i ∈ exactLr1ValidConts G T V st →
        (lr1GetNextState G T V st i).isSome) := by
  refine ⟨?_, ?_, ?_⟩
  · intro d V q i hi
    unfold ReDFA.validConts at hi
    by_cases hq : q = d.dead
    · simp [hq] at hi
    · rw [if_neg hq] at hi
      have hpred := (List.mem_filter.mp hi).2
      simp only [bne_iff_ne, ne_eq] at hpred
      unfold ReDFA.getNextState
      rw [if_neg hpred]
      rfl
  · intro G T V st i hi
    have hpred := (List.mem_filter.mp hi).2
    unfold lr1GetNextState
    rcases hV : V.getD i [] with _ | ⟨b, c⟩
    · simp [advanceBytes]
    · rw [hV] at hpred
      rcases hA : advanceBytes G T st (b :: c) with _ | st'
      · simp [hA] at hpred
      · simp [hA]
  · intro G T V st i hi
    have hpred := (List.mem_filter.mp hi).2
    unfold lr1GetNextState
    rcases hV : V.getD i [] with _ | ⟨b, c⟩
    · simp [advanceBytes]
    · rw [hV] at hpred
      rcases hA : advanceBytes G T st (b :: c) with _ | st'
      · simp [hA] at hpred
      · simp [hA]

/-- Witness for C1 at the concrete machines: index 0 (`"a"`) is a valid
continuation at the respective start states and stepping it succeeds. -/
theorem extension_soundness_witness :
    (dfaW.getNextState [[97]] 0 0).isSome ∧
    (lr1GetNextState lexC tblC [[97]] (lr1StartState tblC) 0).isSome ∧
    (lr1GetNextState lexC tblC [[97]] (lr1StartState tblC) 0).isSome :=
  ⟨extension_soundness.1 dfaW [[97]] 0 0 (by decide),
   extension_soundness.2.1 lexC tblC [[97]] (lr1StartState tblC) 0
     (by simp [lr1ValidConts, advanceBytes, lexC, tblC, lr1StartState,
        LR1State.lexCurrent, List.filter]),
   extension_soundness.2.2 lexC tblC [[97]] (lr1StartState tblC) 0
     (by simp [exactLr1ValidConts, advanceBytes, lexC, tblC, lr1StartState,
        LR1State.lexCurrent, LRTables.shiftTerminal, List.filter])⟩

/-- Claim C3: an empty continuation at index `e` of the vocabulary is among the
valid continuations of every valid state of every constraint, and
`get_next_state` on it returns the state unchanged. -/
theorem empty_continuation_identity :
    (∀ (d : ReDFA) (V : List (List Nat)) (q e : Nat), q ≠ d.dead →
        e < V.length → V.getD e [] = [] →
        e ∈ d.validConts V q ∧ d.getNextState V q e = some q) ∧
    (∀ (G : LR1Lexer) (T : LRTables) (V : List (List Nat)) (st : LR1State)
        (e : Nat), e < V.length → V.getD e [] = [] →
        e ∈ lr1ValidConts G T V st ∧ e ∈ exactLr1ValidConts G T V st ∧
          lr1GetNextState G T V st e = some st) := by
  constructor
  · intro d V q e hq he hVe
    constructor
    · unfold ReDFA.validConts
      rw [if_neg hq]
      refine List.mem_filter.mpr ⟨List.mem_range.mpr he, ?_⟩
      rw [hVe]
      simpa [ReDFA.stepBytes] using hq
    · unfold ReDFA.getNextState
      rw [hVe]
      simp [ReDFA.stepBytes, hq]
  · intro G T V st e he hVe
    refine ⟨?_, ?_, ?_⟩
    · refine List.mem_filter.mpr ⟨List.mem_range.mpr he, ?_⟩
      rw [hVe]
    · refine List.mem_filter.mpr ⟨List.mem_range.mpr he, ?_⟩
      rw [hVe]
    · unfold lr1GetNextState
      rw [hVe]
      simp [advanceBytes]

/-- Witness for C3 at the concrete machines with the empty continuation
at index 0. -/
theorem empty_continuation_identity_witness :
    (0 ∈ dfaW.validConts [[]] 0 ∧ dfaW.getNextState [[]] 0 0 = some 0) ∧
    (0 ∈ lr1ValidConts lexC tblC [[]] (lr1StartState tblC) ∧
      0 ∈ exactLr1ValidConts lexC tblC [[]] (lr1StartState tblC) ∧
      lr1GetNextState lexC tblC [[]] (lr1StartState tblC) 0
        = some (lr1StartState tblC)) :=
  ⟨empty_continuation_identity.1 dfaW [[]] 0 0 (by decide) (by decide) rfl,
   empty_continuation_identity.2 lexC tblC [[]] (lr1StartState tblC) 0
     (by decide) rfl⟩


theorem lruLookup_mem {St : Type} [DecidableEq St] {c : LR1Cache St} {k : St}
    {v : List Nat × Bool} (h : lruLookup c k = some v) : (k, v) ∈ c := by
  unfold lruLookup at h
  rcases hf : c.find? fun e => decide (e.1 = k) with _ | e
  · rw [hf] at h; simp at h
  · rw [hf] at h
    simp at h
    have hmem := List.mem_of_find?_eq_some hf
    have hpred := List.find?_some hf
    simp at hpred
    rcases e with ⟨k', v'⟩
    simp at hpred h
    subst hpred
    subst h
    exact hmem

theorem cacheOK_lruTouch {St : Type} [DecidableEq St] {C : ConstraintSig St}
    {c : LR1Cache St} (hc : CacheOK C c) (k : St) : CacheOK C (lruTouch c k) := by
  unfold lruTouch
  rcases hl : lruLookup c k with _ | v
  · exact hc
  · intro e he
    rcases List.mem_cons.mp he with rfl | hmem
    · exact hc _ (lruLookup_mem hl)
    · exact hc _ (List.mem_of_mem_filter hmem)

theorem cacheOK_lruPut {St : Type} [DecidableEq St] {C : ConstraintSig St}
    {c : LR1Cache St} (hc : CacheOK C c) (cap : Nat) (k : St) :
    CacheOK C (lruPut c cap k (lr1CacheVal C k)) := by
  intro e he
  have he' := List.mem_of_mem_take he
  rcases List.mem_cons.mp he' with rfl | hmem
  · rfl
  · exact hc _ (List.mem_of_mem_filter hmem)

theorem lr1WStep_preserves {St : Type} [DecidableEq St] {C : ConstraintSig St}
    {cap : Nat} {w : SessionInner St × LR1Cache St} (op : SessionOp)
    (hC : CacheOK C w.2) (hI : InnerOK C w.1) :
    CacheOK C (lr1WStep C cap w op).2 ∧ InnerOK C (lr1WStep C cap w op).1 := by
  rcases op with pre | idx
  · simp only [lr1WStep, lr1WReset]
    split
    case h_1 => exact ⟨hC, hI⟩
    case h_2 s hg =>
      split
      case h_1 v hl =>
        have hv : v = lr1CacheVal C s := hC _ (lruLookup_mem hl)
        exact ⟨cacheOK_lruTouch hC s, by simp [InnerOK, hv, lr1CacheVal]⟩
      case h_2 hl =>
        exact ⟨cacheOK_lruPut hC cap s, rfl, rfl⟩
  · simp only [lr1WStep, lr1WNext]
    split
    case h_1 => exact ⟨hC, hI.1, hI.2⟩
    case h_2 s hg =>
      split
      case h_1 v hl =>
        have hv : v = lr1CacheVal C s := hC _ (lruLookup_mem hl)
        exact ⟨cacheOK_lruTouch hC s, by simp [InnerOK, hv, lr1CacheVal]⟩
      case h_2 hl =>
        exact ⟨cacheOK_lruPut hC cap s, rfl, rfl⟩

theorem lr1WFold_preserves {St : Type} [DecidableEq St] {C : ConstraintSig St}
    {cap : Nat} (ops : List SessionOp) :
    ∀ w : SessionInner St × LR1Cache St, CacheOK C w.2 → InnerOK C w.1 →
      CacheOK C (ops.foldl (lr1WStep C cap) w).2 ∧
        InnerOK C (ops.foldl (lr1WStep C cap) w).1 := by
  induction ops with
  | nil => exact fun w hC hI => ⟨hC, hI⟩
  | cons op ops ih =>
      intro w hC hI
      have h := @lr1WStep_preserves _ _ C cap w op hC hI
      simpa [List.foldl_cons] using ih _ h.1 h.2

theorem lr1WRun_invariant {St : Type} [DecidableEq St] (C : ConstraintSig St)
    (cap : Nat) (ops : List SessionOp) :
    CacheOK C (lr1WRun C cap ops).2 ∧ InnerOK C (lr1WRun C cap ops).1 := by
  unfold lr1WRun
  refine lr1WFold_preserves ops _ ?_ ?_
  · exact cacheOK_lruPut (fun e he => by simp at he) cap C.getStartState
  · exact ⟨rfl, rfl⟩

/-- Claim C5: the LRU cache of the `LR1Constraint` wrapper is semantically
invisible: after any sequence of `reset` and `next` calls, the stored
`(indices, is_match)` pair equals what `get_valid_continuations` and
`is_match_state` return on the stored current state, whether each lookup
hit the cache or recomputed. -/
theorem lru_cache_semantically_invisible {St : Type} [DecidableEq St]
    (C : ConstraintSig St) (cap : Nat) (ops : List SessionOp) :
    (lr1WRun C cap ops).1.indices
        = C.getValidContinuations (lr1WRun C cap ops).1.state ∧
      (lr1WRun C cap ops).1.is_match
        = C.isMatchState (lr1WRun C cap ops).1.state :=
  (lr1WRun_invariant C cap ops).2

/-- Claim C10: when `next(index)` hits a failing `get_next_state`, both session
wrappers set only the invalid flag: state, indices and match flag keep
their previous values, so `is_match` and `get` report the predecessor
state while `is_invalid` reports true. -/
theorem next_invalid_frame {St : Type} [DecidableEq St] (C : ConstraintSig St)
    (cap idx : Nat) (inner : SessionInner St) (cache : LR1Cache St)
    (h : C.getNextState inner.state idx = none) :
    regexNext C idx inner = { inner with is_invalid := true } ∧
    lr1WNext C cap idx (inner, cache)
        = ({ inner with is_invalid := true }, cache) ∧
    sessionIsMatch (regexNext C idx inner) = inner.is_match ∧
    regexGet (regexNext C idx inner) = inner.indices ∧
    sessionIsInvalid (regexNext C idx inner) = true ∧
    sessionIsMatch (lr1WNext C cap idx (inner, cache)).1 = inner.is_match ∧
    lr1WGet C (lr1WNext C cap idx (inner, cache)).1 = lr1WGet C inner ∧
    sessionIsInvalid (lr1WNext C cap idx (inner, cache)).1 = true := by
  have hr : regexNext C idx inner = { inner with is_invalid := true } := by
    unfold regexNext
    rw [h]
  have hn : lr1WNext C cap idx (inner, cache)
      = ({ inner with is_invalid := true }, cache) := by
    unfold lr1WNext
    rw [show (inner, cache).1.state = inner.state from rfl, h]
  refine ⟨hr, hn, ?_, ?_, ?_, ?_, ?_, ?_⟩ <;>
    simp [hr, hn, sessionIsMatch, regexGet, sessionIsInvalid, lr1WGet]

/-- Witness for C10 at the degenerate constraint whose `get_next_state`
always fails. -/
theorem next_invalid_frame_witness :
    sigW.getNextState (regexInit sigW).state 3 = none ∧
    regexNext sigW 3 (regexInit sigW)
      = { regexInit sigW with is_invalid := true } :=
  ⟨rfl, (next_invalid_frame sigW 8192 3 (regexInit sigW) [] rfl).1⟩

/-- Claim C9: the `prefix_parse` binding errors on every input that is not
valid UTF-8, and on valid UTF-8 input returns exactly the parse and
unconsumed tail the underlying parser produced. -/
theorem prefix_parse_utf8_gate {α : Type}
    (pp : List Nat → Except String (α × List Nat)) (input : List Nat) :
    (utf8Valid input = false → ∃ e, prefixParseBinding pp input = .error e) ∧
    (∀ p tail, utf8Valid input = true → pp input = .ok (p, tail) →
      prefixParseBinding pp input = .ok (p, tail)) := by
  constructor
  · intro hbad
    unfold prefixParseBinding
    split
    · exact ⟨_, rfl⟩
    · simp [hbad]
  · intro p tail hok hpp
    simp [prefixParseBinding, hpp, hok]

/-- Witness for C9: the lone byte 255 is rejected, the byte `"a"` goes
through together with the underlying parser result. -/
theorem prefix_parse_utf8_gate_witness :
    utf8Valid [255] = false ∧
    (∃ e, prefixParseBinding (fun _ => Except.ok (0, ([] : List Nat))) [255]
        = .error e) ∧
    utf8Valid [97] = true ∧
    prefixParseBinding (fun _ => Except.ok (0, ([] : List Nat))) [97]
        = .ok (0, []) :=
  ⟨by decide,
   (prefix_parse_utf8_gate _ [255]).1 (by decide),
   by decide,
   (prefix_parse_utf8_gate _ [97]).2 0 [] (by decide) rfl⟩


theorem advC_ab : advanceBytes lexC tblC (lr1StartState tblC) [97, 98]
    = some cfgC1 := by
  simp [advanceBytes, lexC, tblC, lr1StartState, cfgC1, LRTables.commitToken,
    LRTables.shiftTerminal, LRTables.applyReduce]

theorem memC_ab : 0 ∈ lr1ValidConts lexC tblC [[97, 98]] (lr1StartState tblC) := by
  simp [lr1ValidConts, advanceBytes, lexC, tblC, lr1StartState,
    LR1State.lexCurrent, LRTables.commitToken, LRTables.shiftTerminal,
    LRTables.applyReduce, List.filter]

theorem eqC_a : exactLr1ValidConts lexC tblC [[97]] (lr1StartState tblC)
    = lr1ValidConts lexC tblC [[97]] (lr1StartState tblC) := by
  simp [exactLr1ValidConts, lr1ValidConts, advanceBytes, lexC, tblC,
    lr1StartState, LR1State.lexCurrent, LRTables.shiftTerminal, List.filter]

theorem lexC_inv (ext : List Nat) :
    ∀ st, (st = cfgC1 ∨ st = cfgC2) →
      ∀ st', advanceBytes lexC tblC st ext = some st' →
        st' = cfgC1 ∨ st' = cfgC2 := by
  induction ext with
  | nil =>
      intro st hst st' h
      simp [advanceBytes] at h
      exact h ▸ hst
  | cons b rest ih =>
      intro st hst st' h
      rcases hst with rfl | rfl
      · by_cases hb : b = 98
        · subst hb
          simp [advanceBytes, lexC, tblC, cfgC1] at h
          exact ih cfgC2 (Or.inr rfl) st' h
        · simp [advanceBytes, lexC, tblC, cfgC1, hb] at h
      · simp [advanceBytes, lexC, tblC, cfgC2, LRTables.commitToken,
          LRTables.shiftTerminal, LRTables.applyReduce] at h

theorem noMatchC : lr1IsMatch tblC cfgC1 = false ∧ lr1IsMatch tblC cfgC2 = false := by
  constructor
  · simp [lr1IsMatch, cfgC1]
  · simp [lr1IsMatch, cfgC2, tblC, LRTables.commitToken, LRTables.shiftTerminal,
      LRTables.applyReduce]

/-- Claim C4 (amended): for every machine and state, the exact variant's
continuation set is a subset — not necessarily strict — of the regular
variant's. -/
theorem exact_subset_regular (G : LR1Lexer) (T : LRTables)
    (V : List (List Nat)) (st : LR1State) (i : Nat)
    (hi : i ∈ exactLr1ValidConts G T V st) : i ∈ lr1ValidConts G T V st := by
  have hmem := List.mem_filter.mp hi
  refine List.mem_filter.mpr ⟨hmem.1, ?_⟩
  have hpred := hmem.2
  rcases hV : V.getD i [] with _ | ⟨b, c⟩
  · simp only [hV]
  · simp only [hV] at hpred ⊢
    rcases hA : advanceBytes G T st (b :: c) with _ | st'
    · simp [hA] at hpred
    · have hpred' : st'.pending = [] ∨
          ∃ x ∈ G.lexReach (st'.lexCurrent G), T.skippable x = true ∨
            (T.shiftTerminal T.redFuel st'.stack x).isSome = true := by
        simpa [hA] using hpred
      simp only [hA]
      rcases hpred' with hp | ⟨t, ht, _⟩
      · simp [hp]
      · have hne : G.lexReach (st'.lexCurrent G) ≠ [] := List.ne_nil_of_mem ht
        simp [hne]

/-- Witness for C4 at the concrete machine: index 0 is in both variants'
sets at the start state. -/
theorem exact_subset_regular_witness :
    0 ∈ exactLr1ValidConts lexC tblC [[97]] (lr1StartState tblC) ∧
      0 ∈ lr1ValidConts lexC tblC [[97]] (lr1StartState tblC) :=
  ⟨by simp [exactLr1ValidConts, advanceBytes, lexC, tblC, lr1StartState,
      LR1State.lexCurrent, LRTables.shiftTerminal, List.filter],
   exact_subset_regular lexC tblC [[97]] (lr1StartState tblC) 0
     (by simp [exactLr1ValidConts, advanceBytes, lexC, tblC, lr1StartState,
        LR1State.lexCurrent, LRTables.shiftTerminal, List.filter])⟩

/-- Counterexample to C4 as stated: at the concrete machine's start state
with vocabulary `["a"]` the exact and regular variants return the same
set, so the exact set is not a strict subset at every state. -/
theorem exact_strict_subset_counterexample :
    exactLr1ValidConts lexC tblC [[97]] (lr1StartState tblC)
        = lr1ValidConts lexC tblC [[97]] (lr1StartState tblC) ∧
      ¬ ∃ j, j ∈ lr1ValidConts lexC tblC [[97]] (lr1StartState tblC) ∧
            j ∉ exactLr1ValidConts lexC tblC [[97]] (lr1StartState tblC) :=
  ⟨eqC_a, fun ⟨_, hj, hnj⟩ => hnj (eqC_a ▸ hj)⟩

/-- Claim C6 (amended): continuation lists are sorted in strictly
ascending index order for the regex oracle and both LR(1) variants, and
for the regex oracle (over a trimmed DFA with a dead sink) the set is
exact: an index is kept iff its continuation is viable. -/
theorem valid_continuations_sorted_and_exact :
    (∀ (d : ReDFA) (V : List (List Nat)) (q : Nat),
        List.Sorted (· < ·) (d.validConts V q)) ∧
    (∀ (G : LR1Lexer) (T : LRTables) (V : List (List Nat)) (st : LR1State),
        List.Sorted (· < ·) (lr1ValidConts G T V st)) ∧
    (∀ (G : LR1Lexer) (T : LRTables) (V : List (List Nat)) (st : LR1State),
        List.Sorted (· < ·) (exactLr1ValidConts G T V st)) ∧
    (∀ (d : ReDFA) (V : List (List Nat)) (q : Nat),
        (∀ b, d.step d.dead b = d.dead) → d.accepting d.dead = false →
        (∀ q', q' ≠ d.dead → ∃ w, d.accepting (d.stepBytes q' w) = true) →
        ∀ i, i ∈ d.validConts V q ↔ i < V.length ∧ d.Viable q (V.getD i [])) := by
  refine ⟨?_, ?_, ?_, ?_⟩
  · intro d V q
    unfold ReDFA.validConts
    split
    · exact List.sorted_nil
    · exact (List.sorted_lt_range _).filter _
  · intro G T V st
    exact (List.sorted_lt_range _).filter _
  · intro G T V st
    exact (List.sorted_lt_range _).filter _
  · intro d V q hsink hnacc htrim i
    constructor
    · intro hi
      unfold ReDFA.validConts at hi
      by_cases hq : q = d.dead
      · simp [hq] at hi
      · rw [if_neg hq] at hi
        have hmem := List.mem_filter.mp hi
        refine ⟨List.mem_range.mp hmem.1, ?_⟩
        have hne : d.stepBytes q (V.getD i []) ≠ d.dead := by
          simpa using hmem.2
        exact htrim _ hne
    · rintro ⟨hlen, w, hw⟩
      unfold ReDFA.validConts
      by_cases hq : q = d.dead
      · exfalso
        subst hq
        rw [ReDFA.stepBytes_dead d hsink, ReDFA.stepBytes_dead d hsink,
          hnacc] at hw
        exact Bool.false_ne_true hw
      · rw [if_neg hq]
        refine List.mem_filter.mpr ⟨List.mem_range.mpr hlen, ?_⟩
        simp only [bne_iff_ne, ne_eq]
        intro hdead
        rw [hdead, ReDFA.stepBytes_dead d hsink, hnacc] at hw
        exact Bool.false_ne_true hw

/-- Witness for C6 at the concrete trimmed DFA. -/
theorem valid_continuations_sorted_and_exact_witness :
    ((∀ b, dfaW.step dfaW.dead b = dfaW.dead) ∧
        dfaW.accepting dfaW.dead = false) ∧
      (0 ∈ dfaW.validConts [[97]] 0 ↔ 0 < 1 ∧ dfaW.Viable 0 [97]) :=
  ⟨⟨fun b => by simp [dfaW], by decide⟩,
   valid_continuations_sorted_and_exact.2.2.2 dfaW [[97]] 0
     (fun b => by simp [dfaW]) (by decide)
     (fun q' hq' => ⟨[], by simpa [dfaW, ReDFA.stepBytes] using hq'⟩) 0⟩

/-- Counterexample to C6 as stated, for both LR(1) variants.  Regular
variant: the lexer-level filter keeps the continuation `"ab"` at the
concrete machine's start state although it is not viable there — the
pending `"b"` can only become the token `"bb"`, which the grammar
`S → a` can never consume, so no extension ever matches.  Exact
variant: at the valid state reached by `"ab"` the §4.4.3-mandated
inclusion of empty continuations keeps the empty continuation although
it is not viable either, for the same reason; this part uses only the
mandated empty-inclusion behaviour, so it applies to any implementation
of the exact variant's contract, however deeply it simulates. -/
theorem lr1_variants_not_exact :
    (0 ∈ lr1ValidConts lexC tblC [[97, 98]] (lr1StartState tblC) ∧
      ¬ LR1Viable lexC tblC (lr1StartState tblC) [97, 98]) ∧
    (lr1GetState lexC tblC [97, 98] = some cfgC1 ∧
      0 ∈ exactLr1ValidConts lexC tblC [[]] cfgC1 ∧
      ¬ LR1Viable lexC tblC cfgC1 []) := by
  have hnv : ¬ ∃ ext st'', advanceBytes lexC tblC cfgC1 ext = some st'' ∧
      lr1IsMatch tblC st'' = true := by
    rintro ⟨ext, st'', hext, hmatch⟩
    rcases lexC_inv ext cfgC1 (Or.inl rfl) st'' hext with rfl | rfl
    · rw [noMatchC.1] at hmatch
      exact Bool.false_ne_true hmatch
    · rw [noMatchC.2] at hmatch
      exact Bool.false_ne_true hmatch
  refine ⟨⟨memC_ab, ?_⟩, advC_ab, ?_, ?_⟩
  · rintro ⟨st', ext, st'', hc, hext, hmatch⟩
    rw [advC_ab] at hc
    have hst' : st' = cfgC1 := (Option.some_inj.mp hc).symm
    subst hst'
    exact hnv ⟨ext, st'', hext, hmatch⟩
  · simp [exactLr1ValidConts]
  · rintro ⟨st', ext, st'', hc, hext, hmatch⟩
    simp only [advanceBytes] at hc
    have hst' : st' = cfgC1 := (Option.some_inj.mp hc).symm
    subst hst'
    exact hnv ⟨ext, st'', hext, hmatch⟩




theorem advanceBytes_nil (G : LR1Lexer) (T : LRTables) (st : LR1State) :
    advanceBytes G T st [] = some st := by
  simp [advanceBytes]

theorem advanceBytes_dead_none {G : LR1Lexer} (T : LRTables) {st : LR1State}
    {b : Nat} (rest : List Nat)
    (hdead : G.lexStep (st.lexState.getD G.lexStart) b = G.lexDead)
    (hm : st.matched = none) :
    advanceBytes G T st (b :: rest) = none := by
  rw [advanceBytes]
  simp [hdead, hm]

theorem advanceBytes_dead_zero {G : LR1Lexer} (T : LRTables) {st : LR1State}
    {b tid lst : Nat} (rest : List Nat)
    (hdead : G.lexStep (st.lexState.getD G.lexStart) b = G.lexDead)
    (hm : st.matched = some (tid, 0, lst)) :
    advanceBytes G T st (b :: rest) = none := by
  rw [advanceBytes]
  simp [hdead, hm]

theorem advanceBytes_dead_commit {G : LR1Lexer} (T : LRTables) {st : LR1State}
    {b tid len lst : Nat} (rest : List Nat)
    (hdead : G.lexStep (st.lexState.getD G.lexStart) b = G.lexDead)
    (hm : st.matched = some (tid, len, lst)) (hlen : len ≠ 0) :
    advanceBytes G T st (b :: rest) =
      match T.commitToken st.stack tid with
      | none => none
      | some stack' =>
          advanceBytes G T ⟨stack', none, [], none⟩
            (((st.pending ++ [b]).drop len) ++ rest) := by
  rw [advanceBytes]
  simp only [hdead, hm, if_pos rfl, hlen, dif_neg]
  rcases T.commitToken st.stack tid with _ | stack' <;> simp

theorem advanceBytes_live {G : LR1Lexer} (T : LRTables) {st : LR1State}
    {b : Nat} (rest : List Nat)
    (hlive : G.lexStep (st.lexState.getD G.lexStart) b ≠ G.lexDead) :
    advanceBytes G T st (b :: rest) =
      advanceBytes G T
        ⟨st.stack, some (G.lexStep (st.lexState.getD G.lexStart) b),
          st.pending ++ [b],
          match G.lexToken (G.lexStep (st.lexState.getD G.lexStart) b) with
          | some tid => some (tid, (st.pending ++ [b]).length,
              G.lexStep (st.lexState.getD G.lexStart) b)
          | none => st.matched⟩ rest := by
  rw [advanceBytes]
  simp [hlive]

theorem advanceBytes_dead_commit_none {G : LR1Lexer} (T : LRTables)
    {st : LR1State} {b tid len lst : Nat} (rest : List Nat)
    (hdead : G.lexStep (st.lexState.getD G.lexStart) b = G.lexDead)
    (hm : st.matched = some (tid, len, lst)) (hlen : len ≠ 0)
    (hcommit : T.commitToken st.stack tid = none) :
    advanceBytes G T st (b :: rest) = none := by
  rw [advanceBytes_dead_commit T rest hdead hm hlen, hcommit]

theorem advanceBytes_dead_commit_some {G : LR1Lexer} (T : LRTables)
    {st : LR1State} {b tid len lst : Nat} {stack' : List Nat} (rest : List Nat)
    (hdead : G.lexStep (st.lexState.getD G.lexStart) b = G.lexDead)
    (hm : st.matched = some (tid, len, lst)) (hlen : len ≠ 0)
    (hcommit : T.commitToken st.stack tid = some stack') :
    advanceBytes G T st (b :: rest) =
      advanceBytes G T ⟨stack', none, [], none⟩
        (((st.pending ++ [b]).drop len) ++ rest) := by
  rw [advanceBytes_dead_commit T rest hdead hm hlen, hcommit]

theorem scanTokens_nil (G : LR1Lexer) (c : LexCfg) :
    scanTokens G c [] = some ([], c) := by
  simp [scanTokens]

theorem scanTokens_dead_none {G : LR1Lexer} {c : LexCfg} {b : Nat}
    (rest : List Nat)
    (hdead : G.lexStep (c.lexState.getD G.lexStart) b = G.lexDead)
    (hm : c.matched = none) :
    scanTokens G c (b :: rest) = none := by
  rw [scanTokens]
  simp [hdead, hm]

theorem scanTokens_dead_zero {G : LR1Lexer} {c : LexCfg} {b tid lst : Nat}
    (rest : List Nat)
    (hdead : G.lexStep (c.lexState.getD G.lexStart) b = G.lexDead)
    (hm : c.matched = some (tid, 0, lst)) :
    scanTokens G c (b :: rest) = none := by
  rw [scanTokens]
  simp [hdead, hm]

theorem scanTokens_dead_commit {G : LR1Lexer} {c : LexCfg}
    {b tid len lst : Nat} (rest : List Nat)
    (hdead : G.lexStep (c.lexState.getD G.lexStart) b = G.lexDead)
    (hm : c.matched = some (tid, len, lst)) (hlen : len ≠ 0) :
    scanTokens G c (b :: rest) =
      match scanTokens G ⟨none, [], none⟩ (((c.pending ++ [b]).drop len) ++ rest) with
      | none => none
      | some (toks, fin) => some (tid :: toks, fin) := by
  rw [scanTokens]
  simp only [hdead, hm, if_pos rfl, hlen, dif_neg]
  simp

theorem scanTokens_live {G : LR1Lexer} {c : LexCfg} {b : Nat} (rest : List Nat)
    (hlive : G.lexStep (c.lexState.getD G.lexStart) b ≠ G.lexDead) :
    scanTokens G c (b :: rest) =
      scanTokens G
        ⟨some (G.lexStep (c.lexState.getD G.lexStart) b), c.pending ++ [b],
          match G.lexToken (G.lexStep (c.lexState.getD G.lexStart) b) with
          | some tid => some (tid, (c.pending ++ [b]).length,
              G.lexStep (c.lexState.getD G.lexStart) b)
          | none => c.matched⟩ rest := by
  rw [scanTokens]
  simp [hlive]


theorem advanceBytes_scan (G : LR1Lexer) (T : LRTables) :
    ∀ (st : LR1State) (input : List Nat),
      advanceBytes G T st input =
        match scanTokens G st.lexCfg input with
        | none => none
        | some (toks, fin) =>
          match parseTokens T st.stack toks with
          | none => none
          | some stack' => some ⟨stack', fin.lexState, fin.pending, fin.matched⟩ := by
  intro st input
  induction st, input using advanceBytes.induct G T
  case case1 st =>
    simp [advanceBytes_nil, scanTokens_nil, parseTokens, LR1State.lexCfg]
  case case2 st top rest lexCur lexNext hdead hm =>
    rw [advanceBytes_dead_none T rest hdead hm,
      scanTokens_dead_none rest hdead hm]
  case case3 st top rest lexCur lexNext hdead tid lst hm =>
    rw [advanceBytes_dead_zero T rest hdead hm,
      scanTokens_dead_zero rest hdead hm]
  case case4 st top rest lexCur lexNext hdead tid len lst hm hlen hcommit =>
    rw [advanceBytes_dead_commit_none T rest hdead hm hlen hcommit,
      scanTokens_dead_commit rest hdead hm hlen]
    simp only [LR1State.lexCfg]
    rcases scanTokens G ⟨none, [], none⟩
        ((st.pending ++ [top]).drop len ++ rest) with _ | ⟨toks, fin⟩ <;>
      simp [parseTokens, hcommit]
  case case5 st top rest lexCur lexNext hdead tid len lst hm hlen stack' hcommit ih =>
    rw [advanceBytes_dead_commit_some T rest hdead hm hlen hcommit, ih,
      scanTokens_dead_commit rest hdead hm hlen]
    simp only [LR1State.lexCfg]
    rcases scanTokens G ⟨none, [], none⟩
        ((st.pending ++ [top]).drop len ++ rest) with _ | ⟨toks, fin⟩ <;>
      simp [parseTokens, hcommit]
  case case6 st top rest lexCur lexNext hlive buf newMatch ih =>
    rw [scanTokens_live rest hlive]
    exact (advanceBytes_live T rest hlive).trans ih


theorem parseTokens_append (T : LRTables) (xs ys : List Nat) :
    ∀ stack, parseTokens T stack (xs ++ ys)
      = match parseTokens T stack xs with
        | none => none
        | some s => parseTokens T s ys := by
  induction xs with
  | nil =>
      intro stack
      simp [parseTokens]
  | cons t ts ih =>
      intro stack
      simp only [List.cons_append, parseTokens]
      rcases T.commitToken stack t with _ | stack'
      · rfl
      · exact ih stack'

theorem lr1_match_iff_lang (G : LR1Lexer) (T : LRTables) (w : List Nat) :
    (∃ st, lr1GetState G T w = some st ∧ lr1IsMatch T st = true) ↔
      lr1Lang G T w = true := by
  have hsim := advanceBytes_scan G T (lr1StartState T) w
  simp only [lr1StartState, LR1State.lexCfg] at hsim
  unfold lr1GetState lr1StartState
  rw [hsim]
  unfold lr1Lang
  rcases hscan : scanTokens G ⟨none, [], none⟩ w with _ | ⟨toks, fin⟩
  · simp
  · rcases hparse : parseTokens T [T.startState] toks with _ | pstack
    · rcases hf : finishTokens fin with _ | extra <;>
        simp [hf, hparse, parseTokens_append]
    · rcases hp : fin.pending with _ | ⟨pb, prest⟩
      · have hf : finishTokens fin = some [] := by
          simp [finishTokens, hp]
        simp [hf, hparse, lr1IsMatch, hp]
      · rcases hm : fin.matched with _ | ⟨tid, len, lst⟩
        · have hf : finishTokens fin = none := by
            simp [finishTokens, hp, hm]
          simp [hf, hparse, lr1IsMatch, hp, hm]
        · by_cases hlen : len = (pb :: prest).length
          · have hf : finishTokens fin = some [tid] := by
              simp [finishTokens, hp, hm, hlen]
            rcases hc : T.commitToken pstack tid with _ | s' <;>
              simp [hf, parseTokens_append, hparse, lr1IsMatch, hp, hm, hlen,
                hc, parseTokens]
          · have hlen' : ¬len = prest.length + 1 := by simpa using hlen
            have hf : finishTokens fin = none := by
              simp [finishTokens, hp, hm, hlen']
            simp [hf, hparse, lr1IsMatch, hp, hm, hlen']


/-- Claim C2: for every byte string `w`, `is_match_state(get_state(w))`
holds iff `w` is in the formal language the constraint was built from:
the DFA's language for the regex oracle, and for the LR(1) oracles the
reference language of the lexer and parse tables — batch maximal-munch
tokenisation followed by the LR driver and acceptance at end of input. -/
theorem match_stability :
    (∀ (d : ReDFA) (w : List Nat), d.accepting d.dead = false →
      ((∃ q, d.getState w = some q ∧ d.isMatchState q = true) ↔ d.Lang w)) ∧
    (∀ (G : LR1Lexer) (T : LRTables) (w : List Nat),
      (∃ st, lr1GetState G T w = some st ∧ lr1IsMatch T st = true) ↔
        lr1Lang G T w = true) := by
  constructor
  · intro d w hnacc
    constructor
    · rintro ⟨q, hq, hm⟩
      unfold ReDFA.getState at hq
      by_cases hd : d.stepBytes d.start w = d.dead
      · rw [if_pos hd] at hq
        exact absurd hq (by simp)
      · rw [if_neg hd] at hq
        have hqe : d.stepBytes d.start w = q := by simpa using hq
        unfold ReDFA.Lang
        rw [hqe]
        exact hm
    · intro hL
      have hd : d.stepBytes d.start w ≠ d.dead := by
        intro h
        unfold ReDFA.Lang at hL
        rw [h, hnacc] at hL
        exact Bool.false_ne_true hL
      refine ⟨d.stepBytes d.start w, ?_, hL⟩
      unfold ReDFA.getState
      rw [if_neg hd]
  · exact lr1_match_iff_lang

/-- Witness for C2: the word `"a"` at the concrete machines. -/
theorem match_stability_witness :
    dfaW.accepting dfaW.dead = false ∧
      ((∃ q, dfaW.getState [97] = some q ∧ dfaW.isMatchState q = true) ↔
        dfaW.Lang [97]) ∧
      ((∃ st, lr1GetState lexC tblC [97] = some st ∧
          lr1IsMatch tblC st = true) ↔ lr1Lang lexC tblC [97] = true) :=
  ⟨rfl, match_stability.1 dfaW [97] rfl, match_stability.2 lexC tblC [97]⟩


/-- Claim C7: for the S2 email regex DFA, the state after the benchmark
prefix `"test@gmail.c"` is the `c`-of-`com` state, and the valid
continuations there include every vocabulary entry whose bytes are a
prefix of `"om"` and exclude the entries `"."` and `"@"`. -/
theorem email_scenario :
    emailDfa.getState emailPre = some 5 ∧
      (((List.range emailVocab.length).filter fun i =>
          (emailVocab.getD i []).isPrefixOf [111, 109]).all fun i =>
            (emailDfa.validConts emailVocab 5).contains i) = true ∧
      (((List.range emailVocab.length).filter fun i =>
          (emailVocab.getD i [] == [46]) || (emailVocab.getD i [] == [64])).all
            fun i => !((emailDfa.validConts emailVocab 5).contains i)) = true := by
  refine ⟨?_, ?_, ?_⟩ <;> decide

end GrammarUtils
